import Mathlib

/-!
# Verification of the request-governance core of terraform-provider-google-tag-manager

This development embeds, in Lean, the token-bucket rate limiter and the
retry/backoff wrappers of the provider's API client (package `internal/api`,
rate-limited variant), and proves the spec's claims about them.

Modelling conventions:
* Go `float64` arithmetic on token balances and timestamps is modelled over `ℚ`
  (the algorithms use only +, -, *, min and comparisons, all exact here).
* Timestamps (`time.Time`) are rationals measured in seconds; `now.Sub(lastRefill).Seconds()`
  becomes `now - lastRefill`.
* A remote call (`query func(...) (resp, error)`) is modelled as a function from
  the 0-based attempt index to its outcome, so stubs may vary per attempt.
* Go `error` values are the inductive `GoError`; the dynamic type assertion
  `err.(*googleapi.Error)` succeeds exactly on the `googleapi` constructor
  (a wrapped or `errors.New`/`fmt.Errorf` error fails it, as in Go).
* The retry loops are executed step by step; besides the result they emit a
  trace of `Event`s: `throttle` for each `c.throttle()` admission call (which
  performs `RateLimiter.Wait()` exactly when throttling is enabled),
  `call n` for the execution of the underlying remote call of attempt `n`, and
  `sleep s` for a backoff sleep of `s` seconds.
* The loop variable `retryCount` (which ranges over `0..retryLimit`) is carried
  as the attempt index `rc` together with `remaining = retryLimit - rc`; the Go
  guard `retryCount < retryLimit` is exactly `remaining > 0`, which makes the
  recursion structural while preserving the source's behaviour.
-/

/-- Go `error` values, as far as the client distinguishes them: a
`*googleapi.Error` with its HTTP status code and message, a sentinel created by
`errors.New` (compared by identity in Go, so a separate constructor), an error
built by `fmt.Errorf` without wrapping, and an error wrapping another one. -/
inductive GoError : Type where
  | googleapi (code : ℤ) (message : String)
  | sentinel (msg : String)
  | errorf (msg : String)
  | wrapped (msg : String) (inner : GoError)
deriving DecidableEq, Repr

/-- The Go condition `errTyped, ok := err.(*googleapi.Error); ok && errTyped.Code == 429`:
true exactly when the error's dynamic type is `*googleapi.Error` and its code is 429. -/
def GoError.is429 : GoError → Bool
  | .googleapi code _ => code == 429
  | _ => false

/-- The Go condition `errTyped, ok := err.(*googleapi.Error); ok && errTyped.Code == 404`. -/
def GoError.is404 : GoError → Bool
  | .googleapi code _ => code == 404
  | _ => false

/-- The 429 test applied to a nullable error (`err` may be nil = `none`). -/
def optIs429 : Option GoError → Bool
  | some e => e.is429
  | none => false

/-- The 429 test applied to the outcome of a payload-returning call
(`.ok` means `err == nil`). -/
def excIs429 {R : Type} : Except GoError R → Bool
  | .error e => e.is429
  | .ok _ => false

/-- `var ErrNotExist = errors.New("not exist")`, the distinguished not-found sentinel. -/
def ErrNotExist : GoError := GoError.sentinel "not exist"

/-- Observable events of one invocation of a retry wrapper. `throttle` is the
`c.throttle()` admission point executed at the top of every loop iteration,
`call n` is the underlying remote call of attempt `n` (0-based), and `sleep s`
is a backoff sleep of `s` seconds. -/
inductive Event : Type where
  | throttle
  | call (attempt : ℕ)
  | sleep (seconds : ℕ)
deriving DecidableEq, Repr

/-- Backoff sleeps of a trace, in order, in seconds. -/
def sleepsOf : List Event → List ℕ
  | [] => []
  | .sleep d :: rest => d :: sleepsOf rest
  | .throttle :: rest => sleepsOf rest
  | .call _ :: rest => sleepsOf rest

/-- Number of underlying remote calls (attempts) in a trace. -/
def attemptsOf : List Event → ℕ
  | [] => 0
  | .call _ :: rest => attemptsOf rest + 1
  | .throttle :: rest => attemptsOf rest
  | .sleep _ :: rest => attemptsOf rest

/-! ## The token-bucket RateLimiter -/

/-- The `RateLimiter` struct: current token balance, burst capacity, refill rate
in tokens per second, and the timestamp of the last refill. The mutex is not
modelled: all claims are about the serialized behaviour under the lock. -/
structure RateLimiter : Type where
  tokens : ℚ
  capacity : ℚ
  refillRate : ℚ
  lastRefill : ℚ
deriving DecidableEq, Repr

/-- The source's own `min` helper on `float64`: `if a < b { return a }; return b`. -/
def goMin (a b : ℚ) : ℚ := if a < b then a else b

/-- `NewRateLimiter(rate, burst)` evaluated at creation time `now`:
`tokens = capacity = float64(burst)`, `refillRate = rate`, `lastRefill = now`. -/
def NewRateLimiter (rate : ℚ) (burst : ℤ) (now : ℚ) : RateLimiter :=
  { tokens := (burst : ℚ)
    capacity := (burst : ℚ)
    refillRate := rate
    lastRefill := now }

/-- `(*RateLimiter).Allow()` evaluated at call time `now`: refill
`tokens = min(capacity, tokens + elapsed*refillRate)`, set `lastRefill = now`,
then consume one token and admit if at least one is available. Returns the
boolean result and the updated limiter state. -/
def RateLimiter.Allow (rl : RateLimiter) (now : ℚ) : Bool × RateLimiter :=
  let elapsed := now - rl.lastRefill
  let tokens := goMin rl.capacity (rl.tokens + elapsed * rl.refillRate)
  if 1 ≤ tokens then
    (true, { rl with tokens := tokens - 1, lastRefill := now })
  else
    (false, { rl with tokens := tokens, lastRefill := now })

/-- A sequence of `Allow` calls at the given call times, returning the list of
their boolean results. -/
def allowTimes (rl : RateLimiter) : List ℚ → List Bool
  | [] => []
  | now :: rest =>
    let out := rl.Allow now
    out.1 :: allowTimes out.2 rest

/-- States reachable from `NewRateLimiter rate burst t0` by `Allow` calls at
non-decreasing times (each call's `now` is at least the stored `lastRefill`,
as with a monotone wall clock). `Wait()` only ever mutates the limiter through
`Allow`, so this also covers every `Wait` call. -/
inductive RateLimiter.Reachable (rate : ℚ) (burst : ℤ) (t0 : ℚ) : RateLimiter → Prop where
  | init : RateLimiter.Reachable rate burst t0 (NewRateLimiter rate burst t0)
  | step (rl : RateLimiter) (now : ℚ) :
      RateLimiter.Reachable rate burst t0 rl → rl.lastRefill ≤ now →
      RateLimiter.Reachable rate burst t0 (rl.Allow now).2

/-! ## The retry wrappers

`executeWithRetry` is the delete-style wrapper (`func (c *Client) executeWithRetry`):
backoff `time.Duration(retryCount) * time.Second`, i.e. `retryCount` seconds.
`getTagWithRetry` is the payload-returning wrapper; `getWorkspaceWithRetry`,
`getVariableWithRetry`, `getTriggerWithRetry` and the four list variants are
verbatim copies of it at other payload types, so it is embedded once, generic in
the payload type `R`; backoff `20 * time.Second * time.Duration(retryCount)`,
i.e. `20 * retryCount` seconds.
-/

/-- Loop body of `executeWithRetry`, at attempt index `rc` with
`remaining = retryLimit - rc` retries left (`retryCount < retryLimit` in the
source is `remaining > 0`). Emits the trace of throttle/call/sleep events. -/
def executeWithRetryLoop (query : ℕ → Option GoError) (limit : ℕ) :
    ℕ → ℕ → Option GoError × List Event
  | remaining, rc =>
    match query rc with
    | some e =>
      if e.is429 then
        match remaining with
        | r + 1 =>
          let out := executeWithRetryLoop query limit r (rc + 1)
          (out.1, .throttle :: .call rc :: .sleep (rc + 1) :: out.2)
        | 0 =>
          (some (.errorf ("rate limit exceeded after " ++ toString limit ++ " retries")),
           [.throttle, .call rc])
      else (some e, [.throttle, .call rc])
    | none => (none, [.throttle, .call rc])

/-- `func (c *Client) executeWithRetry(query) error` with `retryLimit = limit`,
together with its event trace. -/
def executeWithRetry (query : ℕ → Option GoError) (limit : ℕ) :
    Option GoError × List Event :=
  executeWithRetryLoop query limit limit 0

/-- Loop body of `getTagWithRetry` (and of the other seven identical
payload-returning wrappers), at attempt index `rc` with `remaining` retries left. -/
def getTagWithRetryLoop {R : Type} (query : ℕ → Except GoError R) (limit : ℕ) :
    ℕ → ℕ → Except GoError R × List Event
  | remaining, rc =>
    match query rc with
    | .error e =>
      if e.is429 then
        match remaining with
        | r + 1 =>
          let out := getTagWithRetryLoop query limit r (rc + 1)
          (out.1, .throttle :: .call rc :: .sleep (20 * (rc + 1)) :: out.2)
        | 0 =>
          (.error (.errorf ("rate limit exceeded after " ++ toString limit ++ " retries")),
           [.throttle, .call rc])
      else (.error e, [.throttle, .call rc])
    | .ok v => (.ok v, [.throttle, .call rc])

/-- `func (c *Client) getTagWithRetry(query) (*tagmanager.Tag, error)` with
`retryLimit = limit`, together with its event trace. On the error outcome the
returned payload is nil, which `Except.error` captures. -/
def getTagWithRetry {R : Type} (query : ℕ → Except GoError R) (limit : ℕ) :
    Except GoError R × List Event :=
  getTagWithRetryLoop query limit limit 0

/-! ## GovernedClient operations (error-translation layer) -/

/-- `func (c *Client) Tag(...)`: run the payload query through `getTagWithRetry`,
then translate a `*googleapi.Error` with code 404 into `ErrNotExist`; any other
outcome is returned unchanged. `Workspace`, `Variable` and `Trigger` have the
same shape. -/
def clientTag {R : Type} (limit : ℕ) (query : ℕ → Except GoError R) :
    Except GoError R :=
  match (getTagWithRetry query limit).1 with
  | .error e => if e.is404 then .error ErrNotExist else .error e
  | .ok v => .ok v

/-- `func (c *Client) DeleteTag(...)`: delegates to `executeWithRetry` and
returns its error verbatim, with no 404 translation. `DeleteWorkspace`,
`DeleteVariable` and `DeleteTrigger` have the same shape. -/
def clientDeleteTag (limit : ℕ) (query : ℕ → Option GoError) : Option GoError :=
  (executeWithRetry query limit).1

/-- `func (c *Client) CreateTag(...)`: delegates to `getTagWithRetry` and
returns its outcome verbatim, with no 404 translation. `UpdateTag` and the
list/create/update methods of the other entity kinds have the same shape. -/
def clientCreateTag {R : Type} (limit : ℕ) (query : ℕ → Except GoError R) :
    Except GoError R :=
  (getTagWithRetry query limit).1

/-! ## Helper lemmas about `goMin` -/

lemma goMin_eq_min (a b : ℚ) : goMin a b = min a b := by
  unfold goMin
  rcases lt_trichotomy a b with h | h | h
  · rw [if_pos h, min_eq_left h.le]
  · subst h; simp
  · rw [if_neg (not_lt.mpr h.le), min_eq_right h.le]

lemma goMin_of_le {a b : ℚ} (h : b ≤ a) : goMin a b = b := by
  rw [goMin_eq_min, min_eq_right h]

lemma goMin_le_left (a b : ℚ) : goMin a b ≤ a := by
  rw [goMin_eq_min]; exact min_le_left a b

lemma goMin_nonneg {a b : ℚ} (ha : 0 ≤ a) (hb : 0 ≤ b) : 0 ≤ goMin a b := by
  rw [goMin_eq_min]; exact le_min ha hb

/-- C1: for every limiter state with positive refill rate and every call time,
`Allow` refills `tokens` to `min(capacity, tokens + elapsed * refillRate)` and
stamps `lastRefill := now`; it returns true exactly when the refilled balance is
at least 1, in which case the stored balance is the refilled value minus one,
and otherwise stores the refilled value unchanged; capacity and refill rate are
untouched. -/
theorem allow_functional_spec (rl : RateLimiter) (now : ℚ)
    (_hrate : 0 < rl.refillRate) :
    ((rl.Allow now).1 = true ↔
        1 ≤ min rl.capacity (rl.tokens + (now - rl.lastRefill) * rl.refillRate)) ∧
    (rl.Allow now).2.tokens =
      (if 1 ≤ min rl.capacity (rl.tokens + (now - rl.lastRefill) * rl.refillRate) then
        min rl.capacity (rl.tokens + (now - rl.lastRefill) * rl.refillRate) - 1
      else min rl.capacity (rl.tokens + (now - rl.lastRefill) * rl.refillRate)) ∧
    (rl.Allow now).2.lastRefill = now ∧
    (rl.Allow now).2.capacity = rl.capacity ∧
    (rl.Allow now).2.refillRate = rl.refillRate := by
  simp only [RateLimiter.Allow, goMin_eq_min]
  split_ifs with h <;> simp [h]

def sampleRL : RateLimiter := ⟨5, 10, 2, 0⟩

theorem allow_functional_spec_witness :
    (0 : ℚ) < sampleRL.refillRate ∧
    (((sampleRL.Allow 1).1 = true ↔
        1 ≤ min sampleRL.capacity
          (sampleRL.tokens + (1 - sampleRL.lastRefill) * sampleRL.refillRate)) ∧
      (sampleRL.Allow 1).2.tokens =
        (if 1 ≤ min sampleRL.capacity
            (sampleRL.tokens + (1 - sampleRL.lastRefill) * sampleRL.refillRate) then
          min sampleRL.capacity
            (sampleRL.tokens + (1 - sampleRL.lastRefill) * sampleRL.refillRate) - 1
        else min sampleRL.capacity
            (sampleRL.tokens + (1 - sampleRL.lastRefill) * sampleRL.refillRate)) ∧
      (sampleRL.Allow 1).2.lastRefill = 1 ∧
      (sampleRL.Allow 1).2.capacity = sampleRL.capacity ∧
      (sampleRL.Allow 1).2.refillRate = sampleRL.refillRate) :=
  ⟨by norm_num [sampleRL], allow_functional_spec sampleRL 1 (by norm_num [sampleRL])⟩

/-- C9: `0 ≤ tokens ≤ capacity` holds of every limiter state reachable from
`NewRateLimiter rate burst t0` (with non-negative burst and rate) by `Allow`
calls at non-decreasing times; construction establishes it with
`tokens = capacity = burst`, and every `Allow` with non-negative elapsed time
preserves it. `Wait` touches the state only through `Allow`, so sequences of
`Allow` and `Wait` calls are covered alike. -/
theorem rateLimiter_tokens_invariant (rate : ℚ) (burst : ℤ) (t0 : ℚ)
    (hb : 0 ≤ burst) (hr : 0 ≤ rate) :
    ∀ rl : RateLimiter, RateLimiter.Reachable rate burst t0 rl →
      0 ≤ rl.tokens ∧ rl.tokens ≤ rl.capacity ∧
      rl.capacity = (burst : ℚ) ∧ rl.refillRate = rate := by
  intro rl h
  induction h with
  | init =>
    refine ⟨?_, le_refl _, rfl, rfl⟩
    simp only [NewRateLimiter]
    exact_mod_cast hb
  | step rl now _ hnow ih =>
    obtain ⟨h0, hcap, hcapeq, hrateeq⟩ := ih
    have hx : 0 ≤ rl.tokens + (now - rl.lastRefill) * rl.refillRate := by
      have hm : 0 ≤ (now - rl.lastRefill) * rl.refillRate :=
        mul_nonneg (sub_nonneg.mpr hnow) (hrateeq ▸ hr)
      linarith
    have hle : goMin rl.capacity (rl.tokens + (now - rl.lastRefill) * rl.refillRate)
        ≤ rl.capacity := goMin_le_left _ _
    have hge : 0 ≤ goMin rl.capacity (rl.tokens + (now - rl.lastRefill) * rl.refillRate) :=
      goMin_nonneg (le_trans h0 hcap) hx
    rcases le_or_lt 1 (goMin rl.capacity (rl.tokens + (now - rl.lastRefill) * rl.refillRate))
      with h1 | h1
    · have ha : (rl.Allow now).2 = { rl with
          tokens := goMin rl.capacity (rl.tokens + (now - rl.lastRefill) * rl.refillRate) - 1,
          lastRefill := now } := by
        simp [RateLimiter.Allow, h1]
      rw [ha]
      refine ⟨?_, ?_, hcapeq, hrateeq⟩
      · show 0 ≤ goMin rl.capacity (rl.tokens + (now - rl.lastRefill) * rl.refillRate) - 1
        linarith
      · show goMin rl.capacity (rl.tokens + (now - rl.lastRefill) * rl.refillRate) - 1
            ≤ rl.capacity
        linarith
    · have ha : (rl.Allow now).2 = { rl with
          tokens := goMin rl.capacity (rl.tokens + (now - rl.lastRefill) * rl.refillRate),
          lastRefill := now } := by
        simp [RateLimiter.Allow, not_le.mpr h1]
      rw [ha]
      exact ⟨hge, hle, hcapeq, hrateeq⟩

theorem rateLimiter_tokens_invariant_witness :
    (0 : ℤ) ≤ 2 ∧ (0 : ℚ) ≤ 1 ∧
    (0 ≤ ((NewRateLimiter 1 2 0).Allow 0).2.tokens ∧
      ((NewRateLimiter 1 2 0).Allow 0).2.tokens ≤ ((NewRateLimiter 1 2 0).Allow 0).2.capacity ∧
      ((NewRateLimiter 1 2 0).Allow 0).2.capacity = ((2 : ℤ) : ℚ) ∧
      ((NewRateLimiter 1 2 0).Allow 0).2.refillRate = 1) :=
  ⟨by norm_num, by norm_num,
    rateLimiter_tokens_invariant 1 2 0 (by norm_num) (by norm_num) _
      (RateLimiter.Reachable.step _ 0 RateLimiter.Reachable.init
        (by norm_num [NewRateLimiter]))⟩

/-! ## Draining a full bucket with zero elapsed time (C7) -/

lemma allowTimes_drain (t : ℚ) :
    ∀ (k : ℕ) (rl : RateLimiter), rl.tokens = (k : ℚ) → rl.tokens ≤ rl.capacity →
      rl.lastRefill = t →
      allowTimes rl (List.replicate (k + 1) t) = List.replicate k true ++ [false] := by
  intro k
  induction k with
  | zero =>
    intro rl htok hle hlast
    have harg : rl.tokens + (t - rl.lastRefill) * rl.refillRate = 0 := by
      rw [hlast, htok]; ring
    have hrefill : goMin rl.capacity (rl.tokens + (t - rl.lastRefill) * rl.refillRate) = 0 := by
      rw [harg]; exact goMin_of_le (by simpa [htok] using hle)
    have hallow : rl.Allow t = (false, { rl with
        tokens := goMin rl.capacity (rl.tokens + (t - rl.lastRefill) * rl.refillRate),
        lastRefill := t }) := by
      simp [RateLimiter.Allow, hrefill]
    simp [allowTimes, hallow]
  | succ n ih =>
    intro rl htok hle hlast
    have hcast : (1 : ℚ) ≤ ((n : ℚ) + 1) := by
      have : (0 : ℚ) ≤ (n : ℚ) := Nat.cast_nonneg n
      linarith
    have harg : rl.tokens + (t - rl.lastRefill) * rl.refillRate = (n : ℚ) + 1 := by
      rw [hlast, htok]; push_cast; ring
    have hrefill : goMin rl.capacity (rl.tokens + (t - rl.lastRefill) * rl.refillRate)
        = (n : ℚ) + 1 := by
      rw [harg]
      refine goMin_of_le ?_
      calc (n : ℚ) + 1 = rl.tokens := by rw [htok]; push_cast; ring
        _ ≤ rl.capacity := hle
    have hallow : rl.Allow t = (true, { rl with
        tokens := goMin rl.capacity (rl.tokens + (t - rl.lastRefill) * rl.refillRate) - 1,
        lastRefill := t }) := by
      simp [RateLimiter.Allow, hrefill, hcast]
    have hcapge : ((n : ℚ) + 1) ≤ rl.capacity := by
      calc ((n : ℚ) + 1) = rl.tokens := by rw [htok]; push_cast; ring
        _ ≤ rl.capacity := hle
    have hrec := ih { rl with
        tokens := goMin rl.capacity (rl.tokens + (t - rl.lastRefill) * rl.refillRate) - 1,
        lastRefill := t }
      (by
        show goMin rl.capacity (rl.tokens + (t - rl.lastRefill) * rl.refillRate) - 1 = (n : ℚ)
        rw [hrefill]; ring)
      (by
        show goMin rl.capacity (rl.tokens + (t - rl.lastRefill) * rl.refillRate) - 1
            ≤ rl.capacity
        rw [hrefill]; linarith)
      rfl
    show allowTimes rl (List.replicate (n + 1 + 1) t) = List.replicate (n + 1) true ++ [false]
    rw [List.replicate_succ]
    show (rl.Allow t).1 :: allowTimes (rl.Allow t).2 (List.replicate (n + 1) t)
        = List.replicate (n + 1) true ++ [false]
    rw [hallow]
    dsimp only
    rw [hrec]
    simp [List.replicate_succ]

/-- C7: a limiter freshly constructed with integer burst capacity `c ≥ 1`
(so `tokens = capacity = c`), receiving consecutive `Allow` calls with zero
elapsed time between them (all at the creation instant), returns true for
exactly the first `c` calls and false for the `(c+1)`-th. -/
theorem burst_drain (rate t0 : ℚ) (c : ℕ) (_hc : 1 ≤ c) :
    allowTimes (NewRateLimiter rate (c : ℤ) t0) (List.replicate (c + 1) t0) =
      List.replicate c true ++ [false] := by
  apply allowTimes_drain
  · simp [NewRateLimiter]
  · simp [NewRateLimiter]
  · rfl

theorem burst_drain_witness :
    1 ≤ 2 ∧
    allowTimes (NewRateLimiter 5 ((2 : ℕ) : ℤ) 0) (List.replicate (2 + 1) 0) =
      List.replicate 2 true ++ [false] :=
  ⟨by norm_num, burst_drain 5 0 2 (by norm_num)⟩

/-! ## Sustainable-rate sequences never throttled (C8) -/

lemma allowTimes_spaced (rate : ℚ) (hrate : 0 < rate) :
    ∀ (times : List ℚ) (rl : RateLimiter),
      rl.refillRate = rate → 1 ≤ rl.capacity → rl.tokens ≤ rl.capacity →
      (∀ x ∈ times.head?, rl.capacity ≤ rl.tokens + (x - rl.lastRefill) * rate) →
      times.Chain' (fun a b => a + 1 / rate ≤ b) →
      ∀ b ∈ allowTimes rl times, b = true := by
  intro times
  induction times with
  | nil => intro rl _ _ _ _ _ b hb; simp [allowTimes] at hb
  | cons t rest ih =>
    intro rl hrl hcap htle hhead hchain b hb
    have hfull : rl.capacity ≤ rl.tokens + (t - rl.lastRefill) * rl.refillRate := by
      rw [hrl]; exact hhead t rfl
    have hrefill : goMin rl.capacity (rl.tokens + (t - rl.lastRefill) * rl.refillRate)
        = rl.capacity := by
      rw [goMin_eq_min, min_eq_left hfull]
    have hallow : rl.Allow t = (true, { rl with
        tokens := goMin rl.capacity (rl.tokens + (t - rl.lastRefill) * rl.refillRate) - 1,
        lastRefill := t }) := by
      simp [RateLimiter.Allow, hrefill, hcap]
    rw [show allowTimes rl (t :: rest)
        = (rl.Allow t).1 :: allowTimes (rl.Allow t).2 rest from rfl, hallow] at hb
    dsimp only at hb
    rcases List.mem_cons.mp hb with hb' | hb'
    · exact hb'
    · refine ih { rl with
          tokens := goMin rl.capacity (rl.tokens + (t - rl.lastRefill) * rl.refillRate) - 1,
          lastRefill := t } hrl hcap ?_ ?_ hchain.tail b hb'
      · show goMin rl.capacity (rl.tokens + (t - rl.lastRefill) * rl.refillRate) - 1
            ≤ rl.capacity
        rw [hrefill]; linarith
      · intro x hx
        show rl.capacity ≤
          (goMin rl.capacity (rl.tokens + (t - rl.lastRefill) * rl.refillRate) - 1)
            + (x - t) * rate
        rw [hrefill]
        have hgap : t + 1 / rate ≤ x := by
          rcases rest with _ | ⟨y, rest'⟩
          · simp at hx
          · simp only [List.head?] at hx
            have := (List.chain'_cons.mp hchain).1
            simpa [← Option.some_inj.mp hx] using this
        have : (1 : ℚ) ≤ (x - t) * rate := by
          have hxt : 1 / rate ≤ x - t := by linarith
          calc (1 : ℚ) = (1 / rate) * rate := by field_simp
            _ ≤ (x - t) * rate := by
              exact mul_le_mul_of_nonneg_right hxt (le_of_lt hrate)
        linarith

/-- C8: starting from a full bucket with capacity at least 1 and positive refill
rate, any sequence of `Allow` calls whose first call is not before creation and
whose consecutive calls are spaced at least `1/refillRate` seconds apart is
admitted in full: every call returns true. -/
theorem sustained_rate_never_throttled (rate t0 : ℚ) (burst : ℤ) (times : List ℚ)
    (hrate : 0 < rate) (hburst : 1 ≤ (burst : ℚ))
    (hstart : ∀ x ∈ times.head?, t0 ≤ x)
    (hspace : times.Chain' (fun a b => a + 1 / rate ≤ b)) :
    ∀ b ∈ allowTimes (NewRateLimiter rate burst t0) times, b = true := by
  refine allowTimes_spaced rate hrate times (NewRateLimiter rate burst t0) rfl hburst
    (le_refl _) ?_ hspace
  intro x hx
  show (burst : ℚ) ≤ (burst : ℚ) + (x - t0) * rate
  have hx0 : t0 ≤ x := hstart x hx
  nlinarith

theorem sustained_rate_never_throttled_witness :
    ((0 : ℚ) < 2 ∧ 1 ≤ ((1 : ℤ) : ℚ) ∧
      (∀ x ∈ ([0, 1/2, 1] : List ℚ).head?, (0 : ℚ) ≤ x) ∧
      ([0, 1/2, 1] : List ℚ).Chain' (fun a b => a + 1 / 2 ≤ b)) ∧
    ∀ b ∈ allowTimes (NewRateLimiter 2 1 0) ([0, 1/2, 1] : List ℚ), b = true :=
  ⟨⟨by norm_num, by norm_num, by intro x hx; simp at hx; simp [hx], by
      simp [List.chain'_cons]; norm_num⟩,
    sustained_rate_never_throttled 2 0 1 [0, 1/2, 1] (by norm_num) (by norm_num)
      (by intro x hx; simp at hx; simp [hx])
      (by simp [List.chain'_cons]; norm_num)⟩

/-! ## Case lemmas for the retry loops -/

lemma executeLoop_none (query : ℕ → Option GoError) (limit remaining rc : ℕ)
    (hq : query rc = none) :
    executeWithRetryLoop query limit remaining rc = (none, [.throttle, .call rc]) := by
  cases remaining with
  | zero => rw [executeWithRetryLoop.eq_2, hq]
  | succ r => rw [executeWithRetryLoop.eq_1, hq]

lemma executeLoop_non429 (query : ℕ → Option GoError) (limit remaining rc : ℕ)
    (e : GoError) (hq : query rc = some e) (h429 : e.is429 = false) :
    executeWithRetryLoop query limit remaining rc = (some e, [.throttle, .call rc]) := by
  cases remaining with
  | zero => rw [executeWithRetryLoop.eq_2, hq]; simp [h429]
  | succ r => rw [executeWithRetryLoop.eq_1, hq]; simp [h429]

lemma executeLoop_429_retry (query : ℕ → Option GoError) (limit r rc : ℕ)
    (e : GoError) (hq : query rc = some e) (h429 : e.is429 = true) :
    executeWithRetryLoop query limit (r + 1) rc =
      ((executeWithRetryLoop query limit r (rc + 1)).1,
        .throttle :: .call rc :: .sleep (rc + 1) ::
          (executeWithRetryLoop query limit r (rc + 1)).2) := by
  rw [executeWithRetryLoop.eq_1, hq]
  simp [h429]

lemma executeLoop_429_exhausted (query : ℕ → Option GoError) (limit rc : ℕ)
    (e : GoError) (hq : query rc = some e) (h429 : e.is429 = true) :
    executeWithRetryLoop query limit 0 rc =
      (some (.errorf ("rate limit exceeded after " ++ toString limit ++ " retries")),
        [.throttle, .call rc]) := by
  rw [executeWithRetryLoop.eq_2, hq]
  simp [h429]

lemma getTagLoop_ok {R : Type} (query : ℕ → Except GoError R) (limit remaining rc : ℕ)
    (v : R) (hq : query rc = .ok v) :
    getTagWithRetryLoop query limit remaining rc = (.ok v, [.throttle, .call rc]) := by
  cases remaining with
  | zero => rw [getTagWithRetryLoop.eq_2, hq]
  | succ r => rw [getTagWithRetryLoop.eq_1, hq]

lemma getTagLoop_non429 {R : Type} (query : ℕ → Except GoError R) (limit remaining rc : ℕ)
    (e : GoError) (hq : query rc = .error e) (h429 : e.is429 = false) :
    getTagWithRetryLoop query limit remaining rc = (.error e, [.throttle, .call rc]) := by
  cases remaining with
  | zero => rw [getTagWithRetryLoop.eq_2, hq]; simp [h429]
  | succ r => rw [getTagWithRetryLoop.eq_1, hq]; simp [h429]

lemma getTagLoop_429_retry {R : Type} (query : ℕ → Except GoError R) (limit r rc : ℕ)
    (e : GoError) (hq : query rc = .error e) (h429 : e.is429 = true) :
    getTagWithRetryLoop query limit (r + 1) rc =
      ((getTagWithRetryLoop query limit r (rc + 1)).1,
        .throttle :: .call rc :: .sleep (20 * (rc + 1)) ::
          (getTagWithRetryLoop query limit r (rc + 1)).2) := by
  rw [getTagWithRetryLoop.eq_1, hq]
  simp [h429]

lemma getTagLoop_429_exhausted {R : Type} (query : ℕ → Except GoError R) (limit rc : ℕ)
    (e : GoError) (hq : query rc = .error e) (h429 : e.is429 = true) :
    getTagWithRetryLoop query limit 0 rc =
      (.error (.errorf ("rate limit exceeded after " ++ toString limit ++ " retries")),
        [.throttle, .call rc]) := by
  rw [getTagWithRetryLoop.eq_2, hq]
  simp [h429]

/-! ## Exhausted retries (C2) -/

lemma optIs429_elim {q : Option GoError} (h : optIs429 q = true) :
    ∃ e, q = some e ∧ e.is429 = true := by
  cases q with
  | none => simp [optIs429] at h
  | some e => exact ⟨e, rfl, h⟩

lemma excIs429_elim {R : Type} {q : Except GoError R} (h : excIs429 q = true) :
    ∃ e, q = .error e ∧ e.is429 = true := by
  cases q with
  | ok v => simp [excIs429] at h
  | error e => exact ⟨e, rfl, h⟩

lemma executeLoop_all429 (query : ℕ → Option GoError) (limit : ℕ)
    (h : ∀ n, optIs429 (query n) = true) :
    ∀ remaining rc,
      (executeWithRetryLoop query limit remaining rc).1 =
        some (.errorf ("rate limit exceeded after " ++ toString limit ++ " retries")) ∧
      attemptsOf (executeWithRetryLoop query limit remaining rc).2 = remaining + 1 := by
  intro remaining
  induction remaining with
  | zero =>
    intro rc
    obtain ⟨e, hq, h429⟩ := optIs429_elim (h rc)
    rw [executeLoop_429_exhausted query limit rc e hq h429]
    simp [attemptsOf]
  | succ r ih =>
    intro rc
    obtain ⟨e, hq, h429⟩ := optIs429_elim (h rc)
    rw [executeLoop_429_retry query limit r rc e hq h429]
    refine ⟨(ih (rc + 1)).1, ?_⟩
    simp [attemptsOf, (ih (rc + 1)).2]

lemma getTagLoop_all429 {R : Type} (query : ℕ → Except GoError R) (limit : ℕ)
    (h : ∀ n, excIs429 (query n) = true) :
    ∀ remaining rc,
      (getTagWithRetryLoop query limit remaining rc).1 =
        .error (.errorf ("rate limit exceeded after " ++ toString limit ++ " retries")) ∧
      attemptsOf (getTagWithRetryLoop query limit remaining rc).2 = remaining + 1 := by
  intro remaining
  induction remaining with
  | zero =>
    intro rc
    obtain ⟨e, hq, h429⟩ := excIs429_elim (h rc)
    rw [getTagLoop_429_exhausted query limit rc e hq h429]
    simp [attemptsOf]
  | succ r ih =>
    intro rc
    obtain ⟨e, hq, h429⟩ := excIs429_elim (h rc)
    rw [getTagLoop_429_retry query limit r rc e hq h429]
    refine ⟨(ih (rc + 1)).1, ?_⟩
    simp [attemptsOf, (ih (rc + 1)).2]

/-- C2: when the underlying call is 429-classified on every attempt, both the
delete-style wrapper and the payload-returning wrapper perform exactly
`retryLimit + 1` attempts and then return the terminal exhausted-retries error,
whose message carries the configured limit (`"rate limit exceeded after <limit>
retries"`); the payload-returning wrapper's error outcome carries no payload. -/
theorem retries_exhausted {R : Type} (limit : ℕ)
    (querye : ℕ → Option GoError) (queryg : ℕ → Except GoError R)
    (he : ∀ n, optIs429 (querye n) = true) (hg : ∀ n, excIs429 (queryg n) = true) :
    (executeWithRetry querye limit).1 =
      some (.errorf ("rate limit exceeded after " ++ toString limit ++ " retries")) ∧
    attemptsOf (executeWithRetry querye limit).2 = limit + 1 ∧
    (getTagWithRetry queryg limit).1 =
      .error (.errorf ("rate limit exceeded after " ++ toString limit ++ " retries")) ∧
    attemptsOf (getTagWithRetry queryg limit).2 = limit + 1 := by
  obtain ⟨he1, he2⟩ := executeLoop_all429 querye limit he limit 0
  obtain ⟨hg1, hg2⟩ := getTagLoop_all429 queryg limit hg limit 0
  exact ⟨he1, he2, hg1, hg2⟩

def q429e : ℕ → Option GoError := fun _ => some (GoError.googleapi 429 "q")

def q429g : ℕ → Except GoError ℕ := fun _ => .error (GoError.googleapi 429 "q")

theorem retries_exhausted_witness :
    ((∀ n, optIs429 (q429e n) = true) ∧ (∀ n, excIs429 (q429g n) = true)) ∧
    (executeWithRetry q429e 2).1 =
      some (.errorf ("rate limit exceeded after " ++ toString 2 ++ " retries")) ∧
    attemptsOf (executeWithRetry q429e 2).2 = 2 + 1 ∧
    (getTagWithRetry q429g 2).1 =
      .error (.errorf ("rate limit exceeded after " ++ toString 2 ++ " retries")) ∧
    attemptsOf (getTagWithRetry q429g 2).2 = 2 + 1 :=
  ⟨⟨fun _ => rfl, fun _ => rfl⟩,
    retries_exhausted 2 q429e q429g (fun _ => rfl) (fun _ => rfl)⟩

/-! ## Unrolling a prefix of 429-retried attempts -/

/-- Trace of `k` consecutive 429-classified attempts starting at attempt `rc`,
each retried: throttle, call, then a backoff sleep of `f (n)` seconds where `n`
is the 1-based retry number (`f` is the backoff shape of the wrapper). -/
def burnTrace (f : ℕ → ℕ) : ℕ → ℕ → List Event
  | _, 0 => []
  | rc, k + 1 => .throttle :: .call rc :: .sleep (f (rc + 1)) :: burnTrace f (rc + 1) k

lemma sleepsOf_append (l1 l2 : List Event) :
    sleepsOf (l1 ++ l2) = sleepsOf l1 ++ sleepsOf l2 := by
  induction l1 with
  | nil => simp [sleepsOf]
  | cons e rest ih => cases e <;> simp [sleepsOf, ih]

lemma attemptsOf_append (l1 l2 : List Event) :
    attemptsOf (l1 ++ l2) = attemptsOf l1 + attemptsOf l2 := by
  induction l1 with
  | nil => simp [attemptsOf]
  | cons e rest ih => cases e <;> simp [attemptsOf, ih] <;> omega

lemma sleepsOf_burnTrace_length (f : ℕ → ℕ) :
    ∀ k rc, (sleepsOf (burnTrace f rc k)).length = k := by
  intro k
  induction k with
  | zero => intro rc; simp [burnTrace, sleepsOf]
  | succ k ih => intro rc; simp [burnTrace, sleepsOf, ih]

lemma attemptsOf_burnTrace (f : ℕ → ℕ) :
    ∀ k rc, attemptsOf (burnTrace f rc k) = k := by
  intro k
  induction k with
  | zero => intro rc; simp [burnTrace, attemptsOf]
  | succ k ih => intro rc; simp [burnTrace, attemptsOf, ih]

lemma executeLoop_unroll (query : ℕ → Option GoError) (limit : ℕ) :
    ∀ (k rc remaining : ℕ), k ≤ remaining →
      (∀ i, i < k → optIs429 (query (rc + i)) = true) →
      executeWithRetryLoop query limit remaining rc =
        ((executeWithRetryLoop query limit (remaining - k) (rc + k)).1,
          burnTrace (fun n => n) rc k ++
            (executeWithRetryLoop query limit (remaining - k) (rc + k)).2) := by
  intro k
  induction k with
  | zero => intro rc remaining _ _; simp [burnTrace]
  | succ k ih =>
    intro rc remaining hk h429
    obtain ⟨r, rfl⟩ : ∃ r, remaining = r + 1 := ⟨remaining - 1, by omega⟩
    have h0 : optIs429 (query rc) = true := by simpa using h429 0 (by omega)
    obtain ⟨e, hq, he⟩ := optIs429_elim h0
    have e1 : r + 1 - (k + 1) = r - k := by omega
    have e2 : rc + (k + 1) = rc + 1 + k := by omega
    rw [e1, e2, executeLoop_429_retry query limit r rc e hq he]
    have h429' : ∀ i, i < k → optIs429 (query (rc + 1 + i)) = true := by
      intro i hi
      have h := h429 (i + 1) (by omega)
      have e3 : rc + (i + 1) = rc + 1 + i := by omega
      rwa [e3] at h
    rw [ih (rc + 1) r (by omega) h429']
    simp [burnTrace]

lemma getTagLoop_unroll {R : Type} (query : ℕ → Except GoError R) (limit : ℕ) :
    ∀ (k rc remaining : ℕ), k ≤ remaining →
      (∀ i, i < k → excIs429 (query (rc + i)) = true) →
      getTagWithRetryLoop query limit remaining rc =
        ((getTagWithRetryLoop query limit (remaining - k) (rc + k)).1,
          burnTrace (fun n => 20 * n) rc k ++
            (getTagWithRetryLoop query limit (remaining - k) (rc + k)).2) := by
  intro k
  induction k with
  | zero => intro rc remaining _ _; simp [burnTrace]
  | succ k ih =>
    intro rc remaining hk h429
    obtain ⟨r, rfl⟩ : ∃ r, remaining = r + 1 := ⟨remaining - 1, by omega⟩
    have h0 : excIs429 (query rc) = true := by simpa using h429 0 (by omega)
    obtain ⟨e, hq, he⟩ := excIs429_elim h0
    have e1 : r + 1 - (k + 1) = r - k := by omega
    have e2 : rc + (k + 1) = rc + 1 + k := by omega
    rw [e1, e2, getTagLoop_429_retry query limit r rc e hq he]
    have h429' : ∀ i, i < k → excIs429 (query (rc + 1 + i)) = true := by
      intro i hi
      have h := h429 (i + 1) (by omega)
      have e3 : rc + (i + 1) = rc + 1 + i := by omega
      rwa [e3] at h
    rw [ih (rc + 1) r (by omega) h429']
    simp [burnTrace]

/-- C5: if the payload-returning call is 429-classified on the first `k`
attempts (with `k < retryLimit`) and succeeds on attempt `k+1`, `getTagWithRetry`
returns that successful payload with no error, having slept for backoff exactly
`k` times, once before each retry. -/
theorem success_after_k_rate_limits {R : Type} (limit k : ℕ) (v : R)
    (query : ℕ → Except GoError R) (hk : k < limit)
    (h429 : ∀ i, i < k → excIs429 (query i) = true) (hok : query k = .ok v) :
    (getTagWithRetry query limit).1 = .ok v ∧
    (sleepsOf (getTagWithRetry query limit).2).length = k := by
  have h429' : ∀ i, i < k → excIs429 (query (0 + i)) = true := by
    intro i hi; simpa using h429 i hi
  have hu := getTagLoop_unroll query limit k 0 limit (le_of_lt hk) h429'
  have hok' : query (0 + k) = .ok v := by simpa using hok
  unfold getTagWithRetry
  rw [hu, getTagLoop_ok query limit (limit - k) (0 + k) v hok']
  refine ⟨rfl, ?_⟩
  simp [sleepsOf_append, sleepsOf_burnTrace_length, sleepsOf]

def qk1g : ℕ → Except GoError ℕ :=
  fun i => if i = 0 then .error (GoError.googleapi 429 "q") else .ok 7

theorem success_after_k_rate_limits_witness :
    (1 < 3 ∧ (∀ i, i < 1 → excIs429 (qk1g i) = true) ∧ qk1g 1 = .ok 7) ∧
    (getTagWithRetry qk1g 3).1 = .ok 7 ∧
    (sleepsOf (getTagWithRetry qk1g 3).2).length = 1 :=
  ⟨⟨by omega, by decide, rfl⟩,
    success_after_k_rate_limits 3 1 7 qk1g (by omega) (by decide) rfl⟩

/-- C10: the retry wrappers classify an error as retryable exactly when its
dynamic type is `*googleapi.Error` and its `Code` is exactly 429 (an error that
merely wraps a 429, a sentinel, or any other error fails the type assertion);
any non-retryable error that appears after `k` retried 429s (for any
`k ≤ retryLimit`) is returned immediately and unmodified, after exactly `k+1`
attempts and with exactly the `k` earlier backoff sleeps — no sleep follows the
attempt that produced it. Both the delete-style and the payload-returning
wrapper behave this way. -/
theorem only_plain_429_retried {R : Type} (querye : ℕ → Option GoError)
    (queryg : ℕ → Except GoError R) (limit k : ℕ) (e : GoError) :
    (e.is429 = true ↔ ∃ m, e = .googleapi 429 m) ∧
    (k ≤ limit → (∀ i, i < k → optIs429 (querye i) = true) → querye k = some e →
      e.is429 = false →
      (executeWithRetry querye limit).1 = some e ∧
      (sleepsOf (executeWithRetry querye limit).2).length = k ∧
      attemptsOf (executeWithRetry querye limit).2 = k + 1) ∧
    (k ≤ limit → (∀ i, i < k → excIs429 (queryg i) = true) → queryg k = .error e →
      e.is429 = false →
      (getTagWithRetry queryg limit).1 = .error e ∧
      (sleepsOf (getTagWithRetry queryg limit).2).length = k ∧
      attemptsOf (getTagWithRetry queryg limit).2 = k + 1) := by
  refine ⟨?_, ?_, ?_⟩
  · cases e with
    | googleapi c m =>
      simp only [GoError.is429, beq_iff_eq, GoError.googleapi.injEq]
      constructor
      · intro hc; exact ⟨m, hc, rfl⟩
      · rintro ⟨m', hc, _⟩; exact hc
    | sentinel m => simp [GoError.is429]
    | errorf m => simp [GoError.is429]
    | wrapped m inner => simp [GoError.is429]
  · intro hk h429 hq h4
    have h429' : ∀ i, i < k → optIs429 (querye (0 + i)) = true := by
      intro i hi; simpa using h429 i hi
    have hu := executeLoop_unroll querye limit k 0 limit hk h429'
    have hq' : querye (0 + k) = some e := by simpa using hq
    unfold executeWithRetry
    rw [hu, executeLoop_non429 querye limit (limit - k) (0 + k) e hq' h4]
    refine ⟨rfl, ?_, ?_⟩
    · simp [sleepsOf_append, sleepsOf_burnTrace_length, sleepsOf]
    · simp [attemptsOf_append, attemptsOf_burnTrace, attemptsOf]
  · intro hk h429 hq h4
    have h429' : ∀ i, i < k → excIs429 (queryg (0 + i)) = true := by
      intro i hi; simpa using h429 i hi
    have hu := getTagLoop_unroll queryg limit k 0 limit hk h429'
    have hq' : queryg (0 + k) = .error e := by simpa using hq
    unfold getTagWithRetry
    rw [hu, getTagLoop_non429 queryg limit (limit - k) (0 + k) e hq' h4]
    refine ⟨rfl, ?_, ?_⟩
    · simp [sleepsOf_append, sleepsOf_burnTrace_length, sleepsOf]
    · simp [attemptsOf_append, attemptsOf_burnTrace, attemptsOf]

def qMixede : ℕ → Option GoError :=
  fun i => if i = 0 then some (GoError.googleapi 429 "q")
    else some (GoError.wrapped "rate limited" (GoError.googleapi 429 "inner"))

theorem only_plain_429_retried_witness :
    (1 ≤ 3 ∧ (∀ i, i < 1 → optIs429 (qMixede i) = true) ∧
      qMixede 1 = some (GoError.wrapped "rate limited" (GoError.googleapi 429 "inner")) ∧
      (GoError.wrapped "rate limited" (GoError.googleapi 429 "inner")).is429 = false) ∧
    (executeWithRetry qMixede 3).1 =
      some (GoError.wrapped "rate limited" (GoError.googleapi 429 "inner")) ∧
    (sleepsOf (executeWithRetry qMixede 3).2).length = 1 ∧
    attemptsOf (executeWithRetry qMixede 3).2 = 1 + 1 :=
  ⟨⟨by omega, by decide, rfl, rfl⟩,
    (only_plain_429_retried qMixede (fun _ => (Except.ok 0 : Except GoError ℕ)) 3 1
      (GoError.wrapped "rate limited" (GoError.googleapi 429 "inner"))).2.1
      (by omega) (by decide) rfl rfl⟩

/-! ## Linear backoff magnitudes (C6) -/

lemma executeLoop_sleeps_linear (query : ℕ → Option GoError) (limit : ℕ) :
    ∀ remaining rc j d,
      (sleepsOf (executeWithRetryLoop query limit remaining rc).2).get? j = some d →
      d = rc + j + 1 := by
  intro remaining
  induction remaining with
  | zero =>
    intro rc j d h
    rcases hq : query rc with _ | e
    · rw [executeLoop_none query limit 0 rc hq] at h
      simp [sleepsOf] at h
    · cases h4 : e.is429 with
      | false =>
        rw [executeLoop_non429 query limit 0 rc e hq h4] at h
        simp [sleepsOf] at h
      | true =>
        rw [executeLoop_429_exhausted query limit rc e hq h4] at h
        simp [sleepsOf] at h
  | succ r ih =>
    intro rc j d h
    rcases hq : query rc with _ | e
    · rw [executeLoop_none query limit (r + 1) rc hq] at h
      simp [sleepsOf] at h
    · cases h4 : e.is429 with
      | false =>
        rw [executeLoop_non429 query limit (r + 1) rc e hq h4] at h
        simp [sleepsOf] at h
      | true =>
        rw [executeLoop_429_retry query limit r rc e hq h4] at h
        simp only [sleepsOf] at h
        cases j with
        | zero => simp at h; omega
        | succ j' =>
          rw [List.get?_cons_succ] at h
          have := ih (rc + 1) j' d h
          omega

lemma getTagLoop_sleeps_linear {R : Type} (query : ℕ → Except GoError R) (limit : ℕ) :
    ∀ remaining rc j d,
      (sleepsOf (getTagWithRetryLoop query limit remaining rc).2).get? j = some d →
      d = 20 * (rc + j + 1) := by
  intro remaining
  induction remaining with
  | zero =>
    intro rc j d h
    rcases hq : query rc with e | v
    · cases h4 : e.is429 with
      | false =>
        rw [getTagLoop_non429 query limit 0 rc e hq h4] at h
        simp [sleepsOf] at h
      | true =>
        rw [getTagLoop_429_exhausted query limit rc e hq h4] at h
        simp [sleepsOf] at h
    · rw [getTagLoop_ok query limit 0 rc v hq] at h
      simp [sleepsOf] at h
  | succ r ih =>
    intro rc j d h
    rcases hq : query rc with e | v
    · cases h4 : e.is429 with
      | false =>
        rw [getTagLoop_non429 query limit (r + 1) rc e hq h4] at h
        simp [sleepsOf] at h
      | true =>
        rw [getTagLoop_429_retry query limit r rc e hq h4] at h
        simp only [sleepsOf] at h
        cases j with
        | zero => simp at h; omega
        | succ j' =>
          rw [List.get?_cons_succ] at h
          have := ih (rc + 1) j' d h
          omega
    · rw [getTagLoop_ok query limit (r + 1) rc v hq] at h
      simp [sleepsOf] at h

/-- C6: in any run of the wrappers, the backoff sleep before retry number `n`
(1-based, so the sleep at position `j` of the sleep trace has `n = j + 1`) is
exactly `n * 1` second for the delete-style wrapper `executeWithRetry` and
exactly `n * 20` seconds for the payload-returning wrappers; both are linear in
the attempt count. -/
theorem backoff_linear {R : Type} (querye : ℕ → Option GoError)
    (queryg : ℕ → Except GoError R) (limit j d : ℕ) :
    ((sleepsOf (executeWithRetry querye limit).2).get? j = some d → d = (j + 1) * 1) ∧
    ((sleepsOf (getTagWithRetry queryg limit).2).get? j = some d → d = (j + 1) * 20) := by
  constructor
  · intro h
    have := executeLoop_sleeps_linear querye limit limit 0 j d h
    omega
  · intro h
    have := getTagLoop_sleeps_linear queryg limit limit 0 j d h
    omega

theorem backoff_linear_witness :
    ((sleepsOf (executeWithRetry q429e 2).2).get? 0 = some 1 ∧ 1 = (0 + 1) * 1) ∧
    ((sleepsOf (getTagWithRetry q429g 2).2).get? 0 = some 20 ∧ 20 = (0 + 1) * 20) :=
  ⟨⟨rfl, (backoff_linear q429e q429g 2 0 1).1 rfl⟩,
    ⟨rfl, (backoff_linear q429e q429g 2 0 20).2 rfl⟩⟩

/-! ## Admission before every attempt (C4) -/

lemma pair_trace_admitted (a i n : ℕ)
    (h : ([Event.throttle, Event.call a] : List Event).get? i = some (.call n)) :
    1 ≤ i ∧ ([Event.throttle, Event.call a] : List Event).get? (i - 1) = some .throttle := by
  rcases i with _ | (_ | j)
  · simp at h
  · exact ⟨le_refl 1, rfl⟩
  · simp at h

lemma executeLoop_calls_admitted (query : ℕ → Option GoError) (limit : ℕ) :
    ∀ remaining rc i n,
      (executeWithRetryLoop query limit remaining rc).2.get? i = some (.call n) →
      1 ≤ i ∧
        (executeWithRetryLoop query limit remaining rc).2.get? (i - 1) = some .throttle := by
  intro remaining
  induction remaining with
  | zero =>
    intro rc i n h
    have htr : (executeWithRetryLoop query limit 0 rc).2 = [.throttle, .call rc] := by
      rcases hq : query rc with _ | e
      · rw [executeLoop_none query limit 0 rc hq]
      · cases h4 : e.is429 with
        | false => rw [executeLoop_non429 query limit 0 rc e hq h4]
        | true => rw [executeLoop_429_exhausted query limit rc e hq h4]
    rw [htr] at h ⊢
    exact pair_trace_admitted rc i n h
  | succ r ih =>
    intro rc i n h
    rcases hq : query rc with _ | e
    · rw [executeLoop_none query limit (r + 1) rc hq] at h ⊢
      exact pair_trace_admitted rc i n h
    · cases h4 : e.is429 with
      | false =>
        rw [executeLoop_non429 query limit (r + 1) rc e hq h4] at h ⊢
        exact pair_trace_admitted rc i n h
      | true =>
        rw [executeLoop_429_retry query limit r rc e hq h4] at h ⊢
        rcases i with _ | (_ | (_ | j))
        · simp at h
        · exact ⟨le_refl 1, rfl⟩
        · simp at h
        · rw [List.get?_cons_succ, List.get?_cons_succ, List.get?_cons_succ] at h
          obtain ⟨h1, h2⟩ := ih (rc + 1) j n h
          obtain ⟨j', rfl⟩ : ∃ j', j = j' + 1 := ⟨j - 1, by omega⟩
          refine ⟨by omega, ?_⟩
          have e1 : j' + 1 + 1 + 1 + 1 - 1 = j' + 1 + 1 + 1 := by omega
          rw [e1, List.get?_cons_succ, List.get?_cons_succ, List.get?_cons_succ]
          simpa using h2

lemma getTagLoop_calls_admitted {R : Type} (query : ℕ → Except GoError R) (limit : ℕ) :
    ∀ remaining rc i n,
      (getTagWithRetryLoop query limit remaining rc).2.get? i = some (.call n) →
      1 ≤ i ∧
        (getTagWithRetryLoop query limit remaining rc).2.get? (i - 1) = some .throttle := by
  intro remaining
  induction remaining with
  | zero =>
    intro rc i n h
    have htr : (getTagWithRetryLoop query limit 0 rc).2 = [.throttle, .call rc] := by
      rcases hq : query rc with e | v
      · cases h4 : e.is429 with
        | false => rw [getTagLoop_non429 query limit 0 rc e hq h4]
        | true => rw [getTagLoop_429_exhausted query limit rc e hq h4]
      · rw [getTagLoop_ok query limit 0 rc v hq]
    rw [htr] at h ⊢
    exact pair_trace_admitted rc i n h
  | succ r ih =>
    intro rc i n h
    rcases hq : query rc with e | v
    · cases h4 : e.is429 with
      | false =>
        rw [getTagLoop_non429 query limit (r + 1) rc e hq h4] at h ⊢
        exact pair_trace_admitted rc i n h
      | true =>
        rw [getTagLoop_429_retry query limit r rc e hq h4] at h ⊢
        rcases i with _ | (_ | (_ | j))
        · simp at h
        · exact ⟨le_refl 1, rfl⟩
        · simp at h
        · rw [List.get?_cons_succ, List.get?_cons_succ, List.get?_cons_succ] at h
          obtain ⟨h1, h2⟩ := ih (rc + 1) j n h
          obtain ⟨j', rfl⟩ : ∃ j', j = j' + 1 := ⟨j - 1, by omega⟩
          refine ⟨by omega, ?_⟩
          have e1 : j' + 1 + 1 + 1 + 1 - 1 = j' + 1 + 1 + 1 := by omega
          rw [e1, List.get?_cons_succ, List.get?_cons_succ, List.get?_cons_succ]
          simpa using h2
    · rw [getTagLoop_ok query limit (r + 1) rc v hq] at h ⊢
      exact pair_trace_admitted rc i n h

/-- C4: in every invocation of either retry wrapper, every underlying remote
call event in the trace — the first attempt and every retry alike — is
immediately preceded by the `c.throttle()` admission event (which performs the
blocking `RateLimiter.Wait()` exactly when throttling is enabled); no attempt
ever runs without a preceding admission. -/
theorem admission_before_every_attempt {R : Type} (querye : ℕ → Option GoError)
    (queryg : ℕ → Except GoError R) (limit : ℕ) :
    (∀ i n, (executeWithRetry querye limit).2.get? i = some (.call n) →
      1 ≤ i ∧ (executeWithRetry querye limit).2.get? (i - 1) = some .throttle) ∧
    (∀ i n, (getTagWithRetry queryg limit).2.get? i = some (.call n) →
      1 ≤ i ∧ (getTagWithRetry queryg limit).2.get? (i - 1) = some .throttle) :=
  ⟨fun i n h => executeLoop_calls_admitted querye limit limit 0 i n h,
    fun i n h => getTagLoop_calls_admitted queryg limit limit 0 i n h⟩

def qNonee : ℕ → Option GoError := fun _ => none

def qOkg : ℕ → Except GoError ℕ := fun _ => .ok 0

theorem admission_before_every_attempt_witness :
    ((executeWithRetry qNonee 0).2.get? 1 = some (Event.call 0) ∧
      1 ≤ 1 ∧ (executeWithRetry qNonee 0).2.get? 0 = some Event.throttle) ∧
    ((getTagWithRetry qOkg 0).2.get? 1 = some (Event.call 0) ∧
      1 ≤ 1 ∧ (getTagWithRetry qOkg 0).2.get? 0 = some Event.throttle) :=
  ⟨⟨rfl, (admission_before_every_attempt qNonee qOkg 0).1 1 0 rfl⟩,
    ⟨rfl, (admission_before_every_attempt qNonee qOkg 0).2 1 0 rfl⟩⟩

/-! ## 404 translation (C3) -/

/-- Counterexample to C3 as stated: `DeleteTag` funnels a remote 404 through
`executeWithRetry` and returns the underlying `*googleapi.Error` with code 404
verbatim — it is not replaced by the `ErrNotExist` sentinel. -/
theorem delete_404_not_translated :
    clientDeleteTag 10 (fun _ => some (GoError.googleapi 404 "not found")) =
      some (GoError.googleapi 404 "not found") ∧
    some (GoError.googleapi 404 "not found") ≠ some ErrNotExist := by
  constructor
  · rfl
  · decide

/-- C3 amended: only the read-by-id operations (`Workspace`, `Tag`, `Variable`,
`Trigger`) translate a 404-classified error from the transport into the
`ErrNotExist` sentinel; the delete-style operations (and create/update/list)
propagate the 404 verbatim. In all wrappers a 404 is never retried: the wrapper
returns after exactly one attempt with no backoff sleep. -/
theorem notfound_sentinel_translation {R : Type} (limit : ℕ) (m : String)
    (query : ℕ → Except GoError R) (querye : ℕ → Option GoError)
    (hq : query 0 = .error (.googleapi 404 m))
    (hqe : querye 0 = some (.googleapi 404 m)) :
    clientTag limit query = .error ErrNotExist ∧
    attemptsOf (getTagWithRetry query limit).2 = 1 ∧
    sleepsOf (getTagWithRetry query limit).2 = [] ∧
    clientDeleteTag limit querye = some (.googleapi 404 m) ∧
    attemptsOf (executeWithRetry querye limit).2 = 1 ∧
    sleepsOf (executeWithRetry querye limit).2 = [] := by
  have hgd := getTagLoop_non429 query limit limit 0 (.googleapi 404 m) hq rfl
  have hed := executeLoop_non429 querye limit limit 0 (.googleapi 404 m) hqe rfl
  refine ⟨?_, ?_, ?_, ?_, ?_, ?_⟩
  · unfold clientTag getTagWithRetry
    rw [hgd]
    simp [GoError.is404]
  · unfold getTagWithRetry
    rw [hgd]
    simp [attemptsOf]
  · unfold getTagWithRetry
    rw [hgd]
    simp [sleepsOf]
  · unfold clientDeleteTag executeWithRetry
    rw [hed]
  · unfold executeWithRetry
    rw [hed]
    simp [attemptsOf]
  · unfold executeWithRetry
    rw [hed]
    simp [sleepsOf]

def q404g : ℕ → Except GoError ℕ := fun _ => .error (GoError.googleapi 404 "nf")

def q404e : ℕ → Option GoError := fun _ => some (GoError.googleapi 404 "nf")

theorem notfound_sentinel_translation_witness :
    (q404g 0 = .error (GoError.googleapi 404 "nf") ∧
      q404e 0 = some (GoError.googleapi 404 "nf")) ∧
    clientTag 10 q404g = .error ErrNotExist ∧
    attemptsOf (getTagWithRetry q404g 10).2 = 1 ∧
    sleepsOf (getTagWithRetry q404g 10).2 = [] ∧
    clientDeleteTag 10 q404e = some (GoError.googleapi 404 "nf") ∧
    attemptsOf (executeWithRetry q404e 10).2 = 1 ∧
    sleepsOf (executeWithRetry q404e 10).2 = [] :=
  ⟨⟨rfl, rfl⟩, notfound_sentinel_translation 10 "nf" q404g q404e rfl rfl⟩
